import Mathlib

/-!
Verification of the Subjacent Markov Chain subsystem of the `neurs_project`
repository (crate `wordmarkov`): the tokenizer, the interned textlet bag,
the deduplicated edge graph, the selector strategies and the bidirectional
sentence composer.

Modelling conventions:
* Rust `&str` / `String` values are modelled as `List Char`; `str::len()`
  (a UTF-8 byte count) is modelled by `Str.byteLen`.
* Rust `HashMap` is modelled as an association list with first-match lookup
  and replace-on-insert; the source only ever uses `get`/`get_mut`/`insert`
  on its maps (it never iterates them), so iteration order is irrelevant.
* `f32` selector weights are modelled as `ℚ`; the built-in selectors only
  produce small non-negative integer weights (hit counts or the constant 1),
  which `f32` represents exactly.
* Fallible operations return `Outcome`: `panic` models a Rust panic
  (`unwrap` on `None`, `rand::Uniform::new` with an empty range), `err`
  models a returned `Err`, `ok` a returned `Ok`.
* Randomness (`thread_rng`) is modelled by explicitly passed picks: a `Nat`
  for the uniform seed-bag draw and a `ℚ` per step for the weighted draw.
-/

/-- A Rust string, as its list of characters. -/
abbrev Str := List Char

/-- UTF-8 byte width of one character (Rust `char::len_utf8`). -/
def charUtf8Len (c : Char) : Nat :=
  if c.toNat < 0x80 then 1
  else if c.toNat < 0x800 then 2
  else if c.toNat < 0x10000 then 3
  else 4

/-- Rust `str::len`: the UTF-8 byte length of a string. -/
def Str.byteLen (s : Str) : Nat := (s.map charUtf8Len).sum

/-- Rust `char::is_ascii_punctuation`: code points 0x21-0x2F, 0x3A-0x40,
0x5B-0x60 and 0x7B-0x7E. -/
def isAsciiPunct (c : Char) : Bool :=
  (0x21 ≤ c.toNat && c.toNat ≤ 0x2F) ||
  (0x3A ≤ c.toNat && c.toNat ≤ 0x40) ||
  (0x5B ≤ c.toNat && c.toNat ≤ 0x60) ||
  (0x7B ≤ c.toNat && c.toNat ≤ 0x7E)

/-- Rust `char::is_whitespace`: the Unicode `White_Space` property. -/
def isWhitespaceChar (c : Char) : Bool :=
  let n := c.toNat
  (0x09 ≤ n && n ≤ 0x0D) || n = 0x20 || n = 0x85 || n = 0xA0 ||
  n = 0x1680 || (0x2000 ≤ n && n ≤ 0x200A) ||
  n = 0x2028 || n = 0x2029 || n = 0x202F || n = 0x205F || n = 0x3000

/-- The tokenizer's two-way character classification: `true` for the
punctuation-or-whitespace class, `false` for the word class. -/
def punctClass (c : Char) : Bool := isAsciiPunct c || isWhitespaceChar c

/-- A lexed token (`wordmarkov::sentence::token::Token`, current revision:
`Begin`, `End`, `Word`, `Punct`, where `Punct` covers a run of punctuation
and/or whitespace). -/
inductive Token where
  | Begin : Token
  | End : Token
  | Word (s : Str) : Token
  | Punct (s : Str) : Token
deriving DecidableEq, Repr

/-- The string view of a token (`impl Into<&str> for &Token`); `Begin` and
`End` view as the empty string. -/
def Token.view : Token → Str
  | .Begin => []
  | .End => []
  | .Word s => s
  | .Punct s => s

/-- Accumulate maximal runs of same-class characters. `cls` is the class of
the run being accumulated and `acc` its characters in reverse order. -/
def runsAux (cls : Bool) (acc : Str) : Str → List (Bool × Str)
  | [] => [(cls, acc.reverse)]
  | c :: cs =>
    if punctClass c = cls then runsAux cls (c :: acc) cs
    else (cls, acc.reverse) :: runsAux (punctClass c) [c] cs

/-- Split a string into its maximal runs of same-class characters, tagged
with the class (`true` = punctuation/whitespace). -/
def runs : Str → List (Bool × Str)
  | [] => []
  | c :: cs => runsAux (punctClass c) [c] cs

/-- Turn one run into the token it is emitted as. -/
def wrapRun (r : Bool × Str) : Token :=
  if r.1 then .Punct r.2 else .Word r.2

/-- Whether the last run of the input is a word run. -/
def lastRunIsWord (rs : List (Bool × Str)) : Bool :=
  match rs.getLast? with
  | some r => !r.1
  | none => false

/-- Modelled from the spec: the body (everything between `Begin` and `End`)
of the token stream of `wordmarkov::sentence::lex::Lexer`, which is missing
from the source snapshot (`lex.rs` holds an older `LexingState` revision
that the rest of the crate does not reference). Per spec section 4.1: runs of
punctuation-or-whitespace characters become `Punct` tokens and word runs
become `Word` tokens; if the text starts with a word character an empty
`Punct` is emitted right after `Begin`, and if it ends on a word run an
empty `Punct` is synthesized before `End`; an empty input yields the single
body token `Punct ""`. -/
def lexBody (rs : List (Bool × Str)) : List Token :=
  match rs with
  | [] => [.Punct []]
  | r :: _ =>
    (if r.1 then [] else [Token.Punct []]) ++ rs.map wrapRun ++
      (if lastRunIsWord rs then [Token.Punct []] else [])

/-- Modelled from the spec: the full token stream of the missing
`wordmarkov::sentence::lex::Lexer` for an input string — a `Begin`, the
alternating `Punct`/`Word` body, then an `End`, after which the iterator is
exhausted. -/
def lexTokens (s : Str) : List Token :=
  .Begin :: lexBody (runs s) ++ [.End]

-- Sanity: the tokenizer's own integration-test examples.
example :
    lexTokens "Nice tea, mate.".toList =
      [.Begin, .Punct [], .Word "Nice".toList, .Punct " ".toList,
       .Word "tea".toList, .Punct ", ".toList, .Word "mate".toList,
       .Punct ".".toList, .End] := by decide

example :
    lexTokens "[ITEM] Avocado - sweet".toList =
      [.Begin, .Punct "[".toList, .Word "ITEM".toList, .Punct "] ".toList,
       .Word "Avocado".toList, .Punct " - ".toList, .Word "sweet".toList,
       .Punct [], .End] := by decide

example : lexTokens [] = [.Begin, .Punct [], .End] := by decide

/-- The characters of the runs of a string concatenate back to the string. -/
theorem runsAux_flatten (cs : Str) :
    ∀ (cls : Bool) (acc : Str),
      ((runsAux cls acc cs).map (·.2)).flatten = acc.reverse ++ cs := by
  induction cs with
  | nil => intro cls acc; simp [runsAux]
  | cons c cs ih =>
    intro cls acc
    by_cases h : punctClass c = cls
    · simp [runsAux, h, ih]
    · simp [runsAux, h, ih]

/-- Concatenating the runs of a string reproduces the string. -/
theorem runs_flatten (s : Str) : ((runs s).map (·.2)).flatten = s := by
  cases s with
  | nil => simp [runs]
  | cons c cs => simp [runs, runsAux_flatten]

/-- The string view of a wrapped run is the run's characters. -/
theorem view_wrapRun (r : Bool × Str) : (wrapRun r).view = r.2 := by
  cases r with
  | mk cls s => cases cls <;> simp [wrapRun, Token.view]

/-- Splitting a nonempty string yields at least one run. -/
theorem runsAux_ne_nil (cs : Str) (cls : Bool) (acc : Str) :
    runsAux cls acc cs ≠ [] := by
  cases cs with
  | nil => simp [runsAux]
  | cons c cs =>
    by_cases h : punctClass c = cls <;> simp [runsAux, h]
    by_cases h2 : punctClass c = cls <;> simp [h2] at *
    exact runsAux_ne_nil cs cls (c :: acc)

/-- The token views of the stream body concatenate to the run characters. -/
theorem lexBody_flatten (rs : List (Bool × Str)) :
    ((lexBody rs).map Token.view).flatten = (rs.map (·.2)).flatten := by
  cases rs with
  | nil => simp [lexBody, Token.view]
  | cons r rs' =>
    simp only [lexBody, List.map_append, List.flatten_append, List.map_map]
    have h1 : ((if r.1 then ([] : List Token) else [Token.Punct []]).map
        Token.view).flatten = [] := by
      cases h : r.1 <;> simp [Token.view]
    have h2 : ((if lastRunIsWord (r :: rs') then [Token.Punct []]
        else ([] : List Token)).map Token.view).flatten = [] := by
      cases h : lastRunIsWord (r :: rs') <;> simp [Token.view]
    rw [h1, h2]
    simp [Function.comp_def, view_wrapRun]

/-- C1: Round-trip — for every input string `s`, concatenating the string
views of every token the tokenizer emits for `s`, in emission order (with
`Begin` and `End` contributing the empty string), equals `s` exactly. -/
theorem tokenizer_roundtrip (s : Str) :
    ((lexTokens s).map Token.view).flatten = s := by
  unfold lexTokens
  simp only [List.map_cons, List.map_append, List.flatten_cons,
    List.flatten_append, Token.view, lexBody_flatten]
  simpa using runs_flatten s

/-- C4: Tokenizing the string "Nice tea, mate." emits exactly the sequence
`Begin, Punct "", Word "Nice", Punct " ", Word "tea", Punct ", ",
Word "mate", Punct ".", End` — and nothing after `End` (the emitted stream
is exactly this finite list, so the iterator yields `None` forever after). -/
theorem tokenize_nice_tea_mate :
    lexTokens "Nice tea, mate.".toList =
      [.Begin, .Punct [], .Word "Nice".toList, .Punct " ".toList,
       .Word "tea".toList, .Punct ", ".toList, .Word "mate".toList,
       .Punct ".".toList, .End] := by decide

/-- A Markov token (`MarkovToken` / `MarkovTokenOwned` — the borrowed view
and the owned form carry the same data, so one type models both). -/
inductive MarkovToken where
  | Begin : MarkovToken
  | End : MarkovToken
  | Textlet (s : Str) : MarkovToken
deriving DecidableEq, Repr

/-- `MarkovToken::len`: byte length of the token's text, 0 for sentinels. -/
def MarkovToken.len : MarkovToken → Nat
  | .Begin => 0
  | .End => 0
  | .Textlet s => s.byteLen

/-- An edge linking two words in the Markov chain. -/
structure Edge where
  src_idx : Nat
  dst_idx : Nat
  hits : Nat
  pct_idx : Nat
deriving DecidableEq, Repr

/-- Dummy edge used to model the (unreachable in the source's use) panic of
indexing `edge_list` out of bounds through an index vector. -/
def edgeDefault : Edge := ⟨0, 0, 0, 0⟩

/-- First-match lookup in an association list (`HashMap::get`). -/
def mget {α β : Type} [DecidableEq α] (m : List (α × β)) (k : α) : Option β :=
  match m with
  | [] => none
  | (k', v) :: m' => if k' = k then some v else mget m' k

/-- Replace-or-append insertion in an association list (`HashMap::insert`). -/
def mput {α β : Type} [DecidableEq α] (m : List (α × β)) (k : α) (v : β) :
    List (α × β) :=
  match m with
  | [] => [(k, v)]
  | (k', v') :: m' => if k' = k then (k, v) :: m' else (k', v') :: mput m' k v

/-- The errors the chain reports; one constructor per `Err`/`format!` site
in `body.rs` (the message text is abstracted to the site and its data). -/
inductive ChainErr where
  | seedWordNotFound (w : Str) : ChainErr
  | notConnected (t : Option MarkovToken) : ChainErr
  | notConnectedWeird (t : Option MarkovToken) : ChainErr
  | emptyChain : ChainErr
deriving DecidableEq, Repr

/-- Result of a fallible Rust operation: a panic, a returned `Err`, or an
`Ok` value. -/
inductive Outcome (α : Type) where
  | panic : Outcome α
  | err (e : ChainErr) : Outcome α
  | ok (a : α) : Outcome α
deriving DecidableEq, Repr

/-- The graph that links tokens together (`MarkovChain`). -/
structure MarkovChain where
  textlet_bag : List MarkovToken
  textlet_indices : List (Str × Nat)
  edge_list : List Edge
  edges : List (Nat × List Nat)
  reverse_edges : List (Nat × List Nat)
  seedbag : List Nat
deriving DecidableEq, Repr

namespace MarkovChain

/-- `MarkovChain::new`: empty chain with the two sentinel textlets. -/
def new : MarkovChain := ⟨[.Begin, .End], [], [], [], [], []⟩

/-- `MarkovChain::ensure_textlet_index`: the existing id for `word`, or a
freshly allocated one (pushed into the bag and the lookup table). -/
def ensure_textlet_index (c : MarkovChain) (word : Str) : Nat × MarkovChain :=
  match mget c.textlet_indices word with
  | some a => (a, c)
  | none =>
    let i := c.textlet_bag.length
    (i, { c with
            textlet_bag := c.textlet_bag ++ [.Textlet word],
            textlet_indices := mput c.textlet_indices word i })

/-- `MarkovChain::ensure_textlet_from_token`: sentinels map to the fixed ids
0 and 1, text tokens are interned. -/
def ensure_textlet_from_token (c : MarkovChain) (t : Token) :
    Nat × MarkovChain :=
  match t with
  | .Begin => (0, c)
  | .End => (1, c)
  | .Punct w => c.ensure_textlet_index w
  | .Word w => c.ensure_textlet_index w

/-- `MarkovChain::try_get_textlet_index`: pure lookup. -/
def try_get_textlet_index (c : MarkovChain) (word : Str) : Option Nat :=
  mget c.textlet_indices word

/-- `MarkovChain::get_textlet`: resolve an id to its token view. -/
def get_textlet (c : MarkovChain) (index : Nat) : Option MarkovToken :=
  c.textlet_bag.get? index

/-- `Edge::get_source` etc. use `get_textlet(..).unwrap()`; in every state
the source reaches the indices are in bounds, so the default is never
returned. -/
def getTextletD (c : MarkovChain) (index : Nat) : MarkovToken :=
  c.textlet_bag.getD index .Begin

/-- Read an edge out of `edge_list` by index (`&self.edge_list[i]`). -/
def getEdge (c : MarkovChain) (i : Nat) : Edge :=
  c.edge_list.getD i edgeDefault

/-- `MarkovChain::push_new_edge`: append an edge with `hits.unwrap_or(1)`
and return its index. -/
def push_new_edge (c : MarkovChain) (frm dst punct : Nat) (hits : Option Nat) :
    Nat × MarkovChain :=
  let edge : Edge := ⟨frm, dst, hits.getD 1, punct⟩
  let idx := c.edge_list.length
  (idx, { c with edge_list := c.edge_list ++ [edge] })

/-- `MarkovChain::add_reverse_edge`: file the edge under its destination in
the reverse index, unless an already-filed edge has the same source and
punctuation. -/
def add_reverse_edge (c : MarkovChain) (edge_idx : Nat) : MarkovChain :=
  let edge := c.getEdge edge_idx
  match mget c.reverse_edges edge.dst_idx with
  | none =>
    { c with reverse_edges := mput c.reverse_edges edge.dst_idx [edge_idx] }
  | some rev_vec =>
    if rev_vec.any (fun o =>
        let oedge := c.getEdge o
        edge.src_idx = oedge.src_idx && edge.pct_idx = oedge.pct_idx) then
      c
    else
      let newvec := rev_vec ++ [edge_idx]
      { c with reverse_edges := mput c.reverse_edges edge.dst_idx newvec }

/-- The fresh-edge path of `register_edge` (everything after the scan for an
existing `(dst, punct)` match fails): push the edge, then
`self.edges.insert(from, vec![idx])` — replacing any existing forward index
vector for `from` — then `get_mut` and push `idx` again, then file the
reverse edge. -/
def register_edge_new (c : MarkovChain) (frm dst punct : Nat) : MarkovChain :=
  let (idx, c) := c.push_new_edge frm dst punct none
  let c := { c with edges := mput c.edges frm [idx] }
  let c :=
    match mget c.edges frm with
    | some edgevec => { c with edges := mput c.edges frm (edgevec ++ [idx]) }
    | none => { c with edges := mput c.edges frm [idx] }
  c.add_reverse_edge idx

/-- `MarkovChain::register_edge`: add `from` to the seed bag if new; if the
forward index holds an edge matching `(to, punct)`, increment its hits;
otherwise take the fresh-edge path. -/
def register_edge (c : MarkovChain) (frm dst punct : Nat) : MarkovChain :=
  let c :=
    if c.seedbag.contains frm then c
    else { c with seedbag := c.seedbag ++ [frm] }
  match mget c.edges frm with
  | some edgevec =>
    match edgevec.find? (fun ei =>
        let e := c.getEdge ei
        e.dst_idx = dst && e.pct_idx = punct) with
    | some ei =>
      let e := c.getEdge ei
      { c with edge_list := c.edge_list.set ei { e with hits := e.hits + 1 } }
    | none => c.register_edge_new frm dst punct
  | none => c.register_edge_new frm dst punct

end MarkovChain

namespace MarkovChain

/-- `MarkovChain::num_textlets`. -/
def num_textlets (c : MarkovChain) : Nat := c.textlet_bag.length

/-- `MarkovChain::num_edges`. -/
def num_edges (c : MarkovChain) : Nat := c.edge_list.length

/-- `MarkovChain::len`: size of the textlet bag. -/
def len (c : MarkovChain) : Nat := c.textlet_bag.length

/-- `MarkovChain::is_empty`: whether no edge has been registered. -/
def is_empty (c : MarkovChain) : Bool := c.edge_list.isEmpty

/-- `MarkovChain::begin`: position of `Begin` in the textlet bag. The source
uses `position(..).unwrap()`, which panics only if `Begin` is absent — never
the case in a state built by the public constructors; `findIdx` returns the
same position whenever `Begin` is present. -/
def beginIdx (c : MarkovChain) : Nat :=
  c.textlet_bag.findIdx (· == MarkovToken.Begin)

/-- `MarkovChain::end`: position of `End` in the textlet bag. -/
def endIdx (c : MarkovChain) : Nat :=
  c.textlet_bag.findIdx (· == MarkovToken.End)

/-- The triple-collection loop of `parse_sentence`: walk the token stream as
overlapping `(token, punct, next_token)` triples, stopping at the triple
whose `next_token` is `End`; `none` models the loop returning early (and
registering nothing) because `punct` or `next_token` came back `None`
mid-triple. -/
def collectTriples : Token → List Token → Option (List (Token × Token × Token))
  | t, punct :: next :: rest =>
    if next = .End then some [(t, punct, .End)]
    else (collectTriples next rest).map (fun l => (t, punct, next) :: l)
  | _, _ => none

/-- Intern the three tokens of one collected triple (in source order: token,
punct, next token) and register the edge. -/
def registerTriple (c : MarkovChain) (tr : Token × Token × Token) :
    MarkovChain :=
  let (si, c) := c.ensure_textlet_from_token tr.1
  let (pi, c) := c.ensure_textlet_from_token tr.2.1
  let (di, c) := c.ensure_textlet_from_token tr.2.2
  c.register_edge si di pi

/-- The registration loop of `parse_sentence`. -/
def registerTriples (c : MarkovChain) (l : List (Token × Token × Token)) :
    MarkovChain :=
  l.foldl registerTriple c

/-- `parse_sentence`, factored over the token stream it consumes: an empty
stream hits the `"Found a none token prematurely!"` panic; a stream that
ends mid-triple registers nothing; otherwise every collected triple is
interned and registered. -/
def parse_tokens (c : MarkovChain) : List Token → Outcome MarkovChain
  | [] => .panic
  | t :: rest =>
    match collectTriples t rest with
    | none => .ok c
    | some triples => .ok (c.registerTriples triples)

/-- `MarkovChain::parse_sentence`: an empty sentence is a no-op, otherwise
tokenize and feed the stream to the triple loop. The panic branch is
unreachable because the tokenizer always emits `Begin` first. -/
def parse_sentence (c : MarkovChain) (sentence : Str) : MarkovChain :=
  if sentence = [] then c
  else
    match c.parse_tokens (lexTokens sentence) with
    | .ok c' => c'
    | _ => c

/-- A seed for traversal (`MarkovSeed`). -/
inductive Seed where
  | Word (s : Str) : Seed
  | Id (i : Nat) : Seed
  | Random : Seed

/-- The traversal direction (`MarkovTraverseDir`). -/
inductive Dir where
  | Forward : Dir
  | Reverse : Dir
deriving DecidableEq, Repr

/-- `MarkovChain::get_seed`: resolve a seed to a textlet id. `rpick` models
the uniform draw; `Uniform::new(0, seedbag.len())` panics when the seed bag
is empty (`rand` rejects an empty range). -/
def get_seed (c : MarkovChain) (seed : Seed) (rpick : Nat) : Outcome Nat :=
  match seed with
  | .Word w =>
    match c.try_get_textlet_index w with
    | none => .err (.seedWordNotFound w)
    | some i => .ok i
  | .Id i => .ok i
  | .Random =>
    if c.seedbag.length = 0 then .panic
    else .ok (c.seedbag.getD (rpick % c.seedbag.length) 0)

end MarkovChain

/-- `SelectionType`. -/
inductive SelectionType where
  | WeightedRandom : SelectionType
  | Highest : SelectionType
  | Lowest : SelectionType

/-- A `MarkovSelector`, modelled as its capability set: a weight function of
`(from, to, punct, occurrences)` and a selection type. The built-in
selectors are stateless, so `reset` is a no-op and is not modelled. -/
structure Selector where
  weight : MarkovToken → MarkovToken → MarkovToken → Nat → ℚ
  selectionType : SelectionType

/-- `StaticBestSelector`: weight = hit count, always take the highest. -/
def StaticBestSelector : Selector := ⟨fun _ _ _ hits => (hits : ℚ), .Highest⟩

/-- `WeightedRandomSelector`: weight = hit count as a probability mass. -/
def WeightedRandomSelector : Selector :=
  ⟨fun _ _ _ hits => (hits : ℚ), .WeightedRandom⟩

/-- `NaiveRandomSelector` (in `random.rs`): constant weight 1, drawn
uniformly. -/
def NaiveRandomSelector : Selector := ⟨fun _ _ _ _ => 1, .WeightedRandom⟩

namespace MarkovChain

/-- The linear scan of the `WeightedRandom` arm: accumulate weights until
the running sum reaches the drawn value; falling off the end models the
`res.unwrap()` panic. -/
def weightedScan (pick : ℚ) : ℚ → List (Edge × ℚ) → Outcome Edge
  | _, [] => .panic
  | curr, (e, w) :: ps =>
    let curr' := curr + w
    if curr' ≥ pick then .ok e else weightedScan pick curr' ps

/-- The `reduce` of the `Highest` arm: keep the current pair if its weight
is strictly greater, otherwise move to the new pair. -/
def pickHighest (p : Edge × ℚ) (ps : List (Edge × ℚ)) : Edge × ℚ :=
  ps.foldl (fun ewc ewn => if ewc.2 > ewn.2 then ewc else ewn) p

/-- The `reduce` of the `Lowest` arm: keep the current pair if its weight is
strictly smaller, otherwise move to the new pair. -/
def pickLowest (p : Edge × ℚ) (ps : List (Edge × ℚ)) : Edge × ℚ :=
  ps.foldl (fun ewc ewn => if ewc.2 < ewn.2 then ewc else ewn) p

/-- `MarkovChain::_weighted_select`: zip the candidate edges with their
weights and select per the selection type. `reduce(..).unwrap()` on an
empty candidate list and `Uniform::new(0.0, total)` with `total <= 0.0` are
panics. -/
def weightedSelect (c : MarkovChain) (selType : SelectionType)
    (edges : List Nat) (weights : List ℚ) (pick : ℚ) : Outcome Edge :=
  let pairs := (edges.map c.getEdge).zip weights
  match selType with
  | .Lowest =>
    match pairs with
    | [] => .panic
    | p :: ps => .ok (pickLowest p ps).1
  | .Highest =>
    match pairs with
    | [] => .panic
    | p :: ps => .ok (pickHighest p ps).1
  | .WeightedRandom =>
    let total := weights.foldl (· + ·) 0
    if total ≤ 0 then .panic
    else weightedScan pick 0 pairs

/-- The candidate index vector `select_next_word` reads for a direction. -/
def dirIndex (c : MarkovChain) (dir : Dir) (frm : Nat) : Option (List Nat) :=
  match dir with
  | .Forward => mget c.edges frm
  | .Reverse => mget c.reverse_edges frm

/-- `MarkovChain::select_next_word`: resolve the seed, look up its candidate
edges in the direction's index, error when there are none, weight every
candidate with the selector, select one, and return
`(dest, inbetween, dest_idx, inbetween_idx)`. -/
def select_next_word (c : MarkovChain) (seed : Seed) (sel : Selector)
    (dir : Dir) (rpick : Nat) (wpick : ℚ) :
    Outcome (MarkovToken × MarkovToken × Nat × Nat) :=
  match c.get_seed seed rpick with
  | .panic => .panic
  | .err e => .err e
  | .ok frm =>
    match c.dirIndex dir frm with
    | none => .err (.notConnected (c.get_textlet frm))
    | some edges =>
      if edges = [] then .err (.notConnectedWeird (c.get_textlet frm))
      else
        let weights := edges.map (fun ei =>
          let e := c.getEdge ei
          sel.weight (c.getTextletD e.src_idx) (c.getTextletD e.dst_idx)
            (c.getTextletD e.pct_idx) e.hits)
        match c.weightedSelect sel.selectionType edges weights wpick with
        | .panic => .panic
        | .err e => .err e
        | .ok best =>
          match dir with
          | .Forward =>
            .ok (c.getTextletD best.dst_idx, c.getTextletD best.pct_idx,
              best.dst_idx, best.pct_idx)
          | .Reverse =>
            .ok (c.getTextletD best.src_idx, c.getTextletD best.pct_idx,
              best.src_idx, best.pct_idx)

/-- The backward phase of `compose_sentence`: while the cursor is not the
`Begin` id, select a reverse step; stop (adding nothing) when a cap is set
and the prospective total length exceeds `maxHalf`; otherwise prepend the
punctuation, stop after it if the preceding token is `Begin`, else prepend
the token and continue. `fuel` bounds the iterations of the (in Rust
unbounded) loop and also indexes the per-step weighted draw; every theorem
below only needs the loop's behavior across the steps it actually takes. -/
def composeBackward (c : MarkovChain) (sel : Selector) (wpicks : Nat → ℚ)
    (capped : Bool) (maxHalf : Nat) :
    Nat → Nat → List MarkovToken → Nat → Outcome (List MarkovToken × Nat)
  | 0, _, sentence, len => .ok (sentence, len)
  | fuel + 1, cur, sentence, len =>
    if cur = c.beginIdx then .ok (sentence, len)
    else
      match c.select_next_word (.Id cur) sel .Reverse 0 (wpicks fuel) with
      | .panic => .panic
      | .err e => .err e
      | .ok (prev, punct, prvidx, _) =>
        let new_len := len + punct.len + prev.len
        if capped ∧ new_len > maxHalf then .ok (sentence, len)
        else if prev = .Begin then .ok (punct :: sentence, new_len)
        else
          composeBackward c sel wpicks capped maxHalf fuel prvidx
            (prev :: punct :: sentence) new_len

/-- The forward phase of `compose_sentence`: symmetric to the backward
phase, but appending, stopping on `End`, and checking the prospective total
length against the full budget `maxFull`. The loop guard is `cur ≠ begin`,
exactly as in the source. -/
def composeForward (c : MarkovChain) (sel : Selector) (wpicks : Nat → ℚ)
    (capped : Bool) (maxFull : Nat) :
    Nat → Nat → List MarkovToken → Nat → Outcome (List MarkovToken × Nat)
  | 0, _, sentence, len => .ok (sentence, len)
  | fuel + 1, cur, sentence, len =>
    if cur = c.beginIdx then .ok (sentence, len)
    else
      match c.select_next_word (.Id cur) sel .Forward 0 (wpicks fuel) with
      | .panic => .panic
      | .err e => .err e
      | .ok (next, punct, nxtidx, _) =>
        let new_len := len + punct.len + next.len
        if capped ∧ new_len > maxFull then .ok (sentence, len)
        else if next = .End then .ok (sentence ++ [punct], new_len)
        else
          composeForward c sel wpicks capped maxFull fuel nxtidx
            (sentence ++ [punct, next]) new_len

/-- `MarkovChain::compose_sentence`: fail on an empty chain, resolve the
seed, panic (`unwrap`) if the seed id resolves to no textlet, then run the
backward phase against half the budget and the forward phase against the
full budget, with the running length carried from one phase into the
other. -/
def compose_sentence (c : MarkovChain) (seed : Seed) (sel : Selector)
    (max_len : Option Nat) (rpick : Nat) (wpicksB wpicksF : Nat → ℚ)
    (fuel : Nat) : Outcome (List MarkovToken) :=
  if c.is_empty then .err .emptyChain
  else
    match c.get_seed seed rpick with
    | .panic => .panic
    | .err e => .err e
    | .ok sd =>
      match c.get_textlet sd with
      | none => .panic
      | some t =>
        let capped := max_len.isSome
        let maxHalf := max_len.getD 0 / 2
        match c.composeBackward sel wpicksB capped maxHalf fuel sd [t]
            t.len with
        | .panic => .panic
        | .err e => .err e
        | .ok (sentence, len1) =>
          match c.composeForward sel wpicksF capped (max_len.getD 0) fuel sd
              sentence len1 with
          | .panic => .panic
          | .err e => .err e
          | .ok (sentence, _) => .ok sentence

end MarkovChain

/-- C5: Parsing "Mary had a little lamb" into a fresh chain yields exactly
the 9 distinct textlets `Begin, End, "", "Mary", " ", "had", "a", "little",
"lamb"` and 6 edges; afterwards `try_get_textlet_index ""` returns the id
(2) assigned to the empty boundary punctuation and
`try_get_textlet_index "."` returns nothing. -/
theorem parse_mary_had_a_little_lamb :
    (MarkovChain.new.parse_sentence "Mary had a little lamb".toList).textlet_bag
        = [.Begin, .End, .Textlet [], .Textlet "Mary".toList,
           .Textlet " ".toList, .Textlet "had".toList, .Textlet "a".toList,
           .Textlet "little".toList, .Textlet "lamb".toList] ∧
    (MarkovChain.new.parse_sentence
        "Mary had a little lamb".toList).num_edges = 6 ∧
    (MarkovChain.new.parse_sentence
        "Mary had a little lamb".toList).try_get_textlet_index [] = some 2 ∧
    (MarkovChain.new.parse_sentence
        "Mary had a little lamb".toList).try_get_textlet_index ".".toList
        = none := by decide

/-- C2 (failing input): after parsing "a b", then "a c", then "a b" again
from a fresh chain, the edge list holds two distinct edges — at positions 1
and 5 — with the same `(src, dst, punct)` triple `(3, 5, 4)`: the stray
`self.edges.insert(from, vec![idx])` in `register_edge` clobbers the
forward index, so the third parse cannot find the edge created by the first
and appends a duplicate with `hits = 1` instead of incrementing. -/
theorem register_edge_duplicates_edge :
    (((MarkovChain.new.parse_sentence "a b".toList).parse_sentence
        "a c".toList).parse_sentence "a b".toList).edge_list.get? 1
      = some ⟨3, 5, 1, 4⟩ ∧
    (((MarkovChain.new.parse_sentence "a b".toList).parse_sentence
        "a c".toList).parse_sentence "a b".toList).edge_list.get? 5
      = some ⟨3, 5, 1, 4⟩ := by decide

/-- C3 (failing input): parsing "a b a c" once gives 5 edges, but parsing
the same sentence twice gives 7 — not 5 as re-parse idempotence claims —
because the clobbered forward index makes the second parse re-create the
`a → b` and `a → c` edges. -/
theorem reparse_not_idempotent :
    (MarkovChain.new.parse_sentence "a b a c".toList).num_edges = 5 ∧
    ((MarkovChain.new.parse_sentence "a b a c".toList).parse_sentence
        "a b a c".toList).num_edges = 7 := by decide

/-- C10: Truncated-parse atomicity — when the token stream ends before a
complete `(token, punct, next_token)` triple terminating in `End` is read
(the triple-collection loop comes back `none`), `parse_sentence`'s loop
returns with the chain completely unchanged: no textlet interned, no edge
added. (The tokenizer itself always ends a stream with `.., Punct, End`, so
this guards streams the grammar of the lexer never produces.) -/
theorem truncated_parse_atomic (c : MarkovChain) (t : Token)
    (rest : List Token) (h : MarkovChain.collectTriples t rest = none) :
    c.parse_tokens (t :: rest) = .ok c := by
  simp [MarkovChain.parse_tokens, h]

/-- Witness for C10 at a concrete truncated stream: a `Begin` followed by a
lone punctuation token and no further token. -/
theorem truncated_parse_atomic_witness :
    MarkovChain.collectTriples .Begin [.Punct []] = none ∧
    MarkovChain.new.parse_tokens [.Begin, .Punct []] = .ok MarkovChain.new :=
  ⟨by decide,
   truncated_parse_atomic MarkovChain.new .Begin [.Punct []] (by decide)⟩

/-- A successful association-list lookup exhibits a member. -/
theorem mget_mem {α β : Type} [DecidableEq α] {m : List (α × β)} {k : α}
    {v : β} (h : mget m k = some v) : (k, v) ∈ m := by
  induction m with
  | nil => simp [mget] at h
  | cons p m' ih =>
    by_cases hk : p.1 = k
    · rw [show p = (p.1, p.2) from rfl] at h ⊢
      simp [mget, hk] at h
      simp [hk, h]
    · rw [show p = (p.1, p.2) from rfl] at h
      simp [mget, hk] at h
      simp [ih h]

/-- Lookup after insertion with the same key. -/
theorem mget_mput_eq {α β : Type} [DecidableEq α] (m : List (α × β)) (k : α)
    (v : β) : mget (mput m k v) k = some v := by
  induction m with
  | nil => simp [mput, mget]
  | cons p m' ih =>
    by_cases hk : p.1 = k
    · rw [show p = (p.1, p.2) from rfl]
      simp [mput, hk, mget]
    · rw [show p = (p.1, p.2) from rfl]
      simp [mput, hk, mget, ih]

/-- Lookup after insertion with a different key. -/
theorem mget_mput_ne {α β : Type} [DecidableEq α] (m : List (α × β))
    {k k' : α} (v : β) (h : k' ≠ k) : mget (mput m k v) k' = mget m k' := by
  induction m with
  | nil => simp [mput, mget, Ne.symm h]
  | cons p m' ih =>
    by_cases hk : p.1 = k
    · rw [show p = (p.1, p.2) from rfl, hk]
      simp [mput, mget, Ne.symm h]
    · rw [show p = (p.1, p.2) from rfl]
      simp [mput, hk, mget, ih]

/-- Members after an insertion come from the old map or are the new pair. -/
theorem mem_mput {α β : Type} [DecidableEq α] {m : List (α × β)} {k : α}
    {v : β} {q : α × β} (h : q ∈ mput m k v) : q ∈ m ∨ q = (k, v) := by
  induction m with
  | nil => simp [mput] at h; simp [h]
  | cons p m' ih =>
    by_cases hk : p.1 = k
    · rw [show p = (p.1, p.2) from rfl] at h ⊢
      simp [mput, hk] at h
      rcases h with h | h
      · right; simp [h]
      · left; simp [h]
    · rw [show p = (p.1, p.2) from rfl] at h ⊢
      simp [mput, hk] at h
      rcases h with h | h
      · left; simp [h]
      · rcases ih h with h2 | h2
        · left; simp [h2]
        · right; exact h2

/-- Well-formedness of the interner: every recorded id is in range of the
textlet bag, and no two different strings share an id. Holds for every
chain state built through the public interface. -/
def TextletIndexWF (c : MarkovChain) : Prop :=
  (∀ p ∈ c.textlet_indices, p.2 < c.textlet_bag.length) ∧
  (∀ p ∈ c.textlet_indices, ∀ q ∈ c.textlet_indices, p.2 = q.2 → p.1 = q.1)

/-- C9: Interning stability — on a well-formed chain state, calling
`ensure_textlet_index` twice with the same string returns the same id both
times and the second call leaves the chain (in particular the textlet bag)
completely unchanged; calling it with two different strings never returns
the same id. -/
theorem interning_stability (c : MarkovChain) (w1 w2 : Str)
    (hwf : TextletIndexWF c) :
    ((c.ensure_textlet_index w1).2.ensure_textlet_index w1
        = c.ensure_textlet_index w1) ∧
    (w1 ≠ w2 →
      (c.ensure_textlet_index w1).1
        ≠ ((c.ensure_textlet_index w1).2.ensure_textlet_index w2).1) := by
  constructor
  · cases h1 : mget c.textlet_indices w1 with
    | some a => simp [MarkovChain.ensure_textlet_index, h1]
    | none =>
      simp [MarkovChain.ensure_textlet_index, h1, mget_mput_eq]
  · intro hne
    cases h1 : mget c.textlet_indices w1 with
    | some a =>
      cases h2 : mget c.textlet_indices w2 with
      | some b =>
        simp [MarkovChain.ensure_textlet_index, h1, h2]
        intro hab
        exact hne (hwf.2 _ (mget_mem h1) _ (mget_mem h2) hab)
      | none =>
        simp [MarkovChain.ensure_textlet_index, h1, h2]
        exact Nat.ne_of_lt (hwf.1 _ (mget_mem h1))
    | none =>
      have h2 : mget (mput c.textlet_indices w1 c.textlet_bag.length) w2
          = mget c.textlet_indices w2 :=
        mget_mput_ne _ _ (fun hh => hne hh.symm)
      cases h3 : mget c.textlet_indices w2 with
      | some b =>
        simp [MarkovChain.ensure_textlet_index, h1, h2, h3]
        exact (Nat.ne_of_lt (hwf.1 _ (mget_mem h3))).symm
      | none =>
        simp [MarkovChain.ensure_textlet_index, h1, h2, h3]

/-- Interner well-formedness is checkable on concrete states. -/
instance (c : MarkovChain) : Decidable (TextletIndexWF c) := by
  unfold TextletIndexWF
  infer_instance

/-- Witness for C9 at a concrete well-formed state: the fresh chain, with
the strings "a" and "b". -/
theorem interning_stability_witness :
    TextletIndexWF MarkovChain.new ∧
    (MarkovChain.new.ensure_textlet_index "a".toList).1
      ≠ ((MarkovChain.new.ensure_textlet_index
            "a".toList).2.ensure_textlet_index "b".toList).1 :=
  ⟨by decide,
   (interning_stability MarkovChain.new "a".toList "b".toList
      (by decide)).2 (by decide)⟩

/-- The fresh chain's interner is well formed. -/
theorem textletIndexWF_new : TextletIndexWF MarkovChain.new := by
  constructor <;> simp [MarkovChain.new]

/-- Interning preserves interner well-formedness. -/
theorem textletIndexWF_ensure (c : MarkovChain) (w : Str)
    (h : TextletIndexWF c) :
    TextletIndexWF (c.ensure_textlet_index w).2 := by
  cases h1 : mget c.textlet_indices w with
  | some a => simpa [MarkovChain.ensure_textlet_index, h1] using h
  | none =>
    simp only [MarkovChain.ensure_textlet_index, h1]
    constructor
    · intro p hp
      rcases mem_mput hp with hm | he
      · simpa using Nat.lt_succ_of_lt (h.1 p hm)
      · simp [he]
    · intro p hp q hq heq
      rcases mem_mput hp with hpm | hpe <;> rcases mem_mput hq with hqm | hqe
      · exact h.2 p hpm q hqm heq
      · exfalso
        have hq2 : q.2 = c.textlet_bag.length := by rw [hqe]
        have hp2 := h.1 p hpm
        omega
      · exfalso
        have hp2 : p.2 = c.textlet_bag.length := by rw [hpe]
        have hq2 := h.1 q hqm
        omega
      · rw [hpe, hqe]

/-- `add_reverse_edge` leaves the interner untouched. -/
theorem add_reverse_edge_textlets (c : MarkovChain) (i : Nat) :
    (c.add_reverse_edge i).textlet_indices = c.textlet_indices ∧
    (c.add_reverse_edge i).textlet_bag = c.textlet_bag := by
  unfold MarkovChain.add_reverse_edge
  dsimp only
  split
  · simp
  · split <;> simp

/-- `register_edge_new` leaves the interner untouched. -/
theorem register_edge_new_textlets (c : MarkovChain) (frm dst punct : Nat) :
    (c.register_edge_new frm dst punct).textlet_indices = c.textlet_indices ∧
    (c.register_edge_new frm dst punct).textlet_bag = c.textlet_bag := by
  unfold MarkovChain.register_edge_new MarkovChain.push_new_edge
  dsimp only
  split <;> exact add_reverse_edge_textlets _ _

/-- `register_edge` leaves the interner untouched. -/
theorem register_edge_textlets (c : MarkovChain) (frm dst punct : Nat) :
    (c.register_edge frm dst punct).textlet_indices = c.textlet_indices ∧
    (c.register_edge frm dst punct).textlet_bag = c.textlet_bag := by
  unfold MarkovChain.register_edge
  dsimp only
  repeat' split
  all_goals
    first
      | exact register_edge_new_textlets _ _ _ _
      | (constructor <;> rfl)

/-- Interning a token preserves interner well-formedness. -/
theorem textletIndexWF_from_token (c : MarkovChain) (t : Token)
    (h : TextletIndexWF c) :
    TextletIndexWF (c.ensure_textlet_from_token t).2 := by
  cases t with
  | Begin => exact h
  | End => exact h
  | Punct w => exact textletIndexWF_ensure c w h
  | Word w => exact textletIndexWF_ensure c w h

/-- Registering an edge preserves interner well-formedness. -/
theorem textletIndexWF_register_edge (c : MarkovChain) (frm dst punct : Nat)
    (h : TextletIndexWF c) :
    TextletIndexWF (c.register_edge frm dst punct) := by
  have heq := register_edge_textlets c frm dst punct
  unfold TextletIndexWF at h ⊢
  rw [heq.1, heq.2]
  exact h

/-- Registering one triple preserves interner well-formedness. -/
theorem textletIndexWF_registerTriple (c : MarkovChain)
    (tr : Token × Token × Token) (h : TextletIndexWF c) :
    TextletIndexWF (c.registerTriple tr) := by
  unfold MarkovChain.registerTriple
  rcases he1 : c.ensure_textlet_from_token tr.1 with ⟨si, c1⟩
  have h1 : TextletIndexWF c1 := by
    have := textletIndexWF_from_token c tr.1 h; rwa [he1] at this
  rcases he2 : c1.ensure_textlet_from_token tr.2.1 with ⟨pj, c2⟩
  have h2 : TextletIndexWF c2 := by
    have := textletIndexWF_from_token c1 tr.2.1 h1; rwa [he2] at this
  rcases he3 : c2.ensure_textlet_from_token tr.2.2 with ⟨di, c3⟩
  have h3 : TextletIndexWF c3 := by
    have := textletIndexWF_from_token c2 tr.2.2 h2; rwa [he3] at this
  simp only [he1, he2, he3]
  exact textletIndexWF_register_edge c3 si di pj h3

/-- The registration loop preserves interner well-formedness. -/
theorem textletIndexWF_registerTriples (l : List (Token × Token × Token)) :
    ∀ (c : MarkovChain), TextletIndexWF c →
      TextletIndexWF (c.registerTriples l) := by
  induction l with
  | nil => intro c h; exact h
  | cons tr l ih =>
    intro c h
    exact ih _ (textletIndexWF_registerTriple c tr h)

/-- The token-stream parse preserves interner well-formedness. -/
theorem textletIndexWF_parse_tokens (c c' : MarkovChain) (toks : List Token)
    (he : c.parse_tokens toks = .ok c') (h : TextletIndexWF c) :
    TextletIndexWF c' := by
  cases toks with
  | nil => simp [MarkovChain.parse_tokens] at he
  | cons t rest =>
    unfold MarkovChain.parse_tokens at he
    cases hc : MarkovChain.collectTriples t rest with
    | none =>
      simp [hc] at he
      rw [← he]
      exact h
    | some tr =>
      simp [hc] at he
      rw [← he]
      exact textletIndexWF_registerTriples tr c h

/-- C9 support: `parse_sentence` preserves interner well-formedness, so the
hypothesis of `interning_stability` holds in every state reachable from
`MarkovChain.new` through the public mutators. -/
theorem textletIndexWF_parse_sentence (c : MarkovChain) (s : Str)
    (h : TextletIndexWF c) : TextletIndexWF (c.parse_sentence s) := by
  unfold MarkovChain.parse_sentence
  split
  · exact h
  · split
    · exact textletIndexWF_parse_tokens c _ _ (by assumption) h
    · exact h

/-- `r` is the last candidate attaining the maximal weight of the pair list
`l`: it occurs at a position after which every weight is strictly smaller,
and no weight anywhere exceeds it. -/
def IsLastMax (l : List (Edge × ℚ)) (r : Edge × ℚ) : Prop :=
  ∃ i : Fin l.length, l.get i = r ∧ (∀ q ∈ l, q.2 ≤ r.2) ∧
    ∀ j : Fin l.length, i.val < j.val → (l.get j).2 < r.2

/-- `r` is the last candidate attaining the minimal weight of `l`. -/
def IsLastMin (l : List (Edge × ℚ)) (r : Edge × ℚ) : Prop :=
  ∃ i : Fin l.length, l.get i = r ∧ (∀ q ∈ l, r.2 ≤ q.2) ∧
    ∀ j : Fin l.length, i.val < j.val → r.2 < (l.get j).2

/-- The `Highest` reduce of `_weighted_select` returns the last candidate of
maximal weight. -/
theorem MarkovChain.pickHighest_lastMax (ps : List (Edge × ℚ)) :
    ∀ p : Edge × ℚ, IsLastMax (p :: ps) (MarkovChain.pickHighest p ps) := by
  induction ps with
  | nil =>
    intro p
    refine ⟨⟨0, by simp⟩, by simp [MarkovChain.pickHighest], ?_, ?_⟩
    · intro q hq
      rw [List.mem_singleton.mp hq]
      simp [MarkovChain.pickHighest]
    · intro j hj
      rcases j with ⟨jv, hjv⟩
      simp only [Fin.val_mk] at hj
      simp only [List.length_cons, List.length_nil] at hjv
      exact absurd hj (by omega)
  | cons q qs ih =>
    intro p
    have hfold : MarkovChain.pickHighest p (q :: qs)
        = MarkovChain.pickHighest (if p.2 > q.2 then p else q) qs := by
      simp [MarkovChain.pickHighest]
    by_cases hgt : p.2 > q.2
    · rw [hfold, if_pos hgt]
      obtain ⟨i, hget, hmax, hafter⟩ := ih p
      rcases i with ⟨iv, hiv⟩
      cases iv with
      | zero =>
        refine ⟨⟨0, by simp⟩, by simpa using hget, ?_, ?_⟩
        · intro r hr
          rcases List.mem_cons.mp hr with h | hr2
          · rw [h]; exact hmax p (List.mem_cons_self _ _)
          rcases List.mem_cons.mp hr2 with h | h
          · rw [h]
            calc q.2 ≤ p.2 := le_of_lt hgt
              _ ≤ _ := hmax p (List.mem_cons_self _ _)
          · exact hmax r (List.mem_cons_of_mem _ h)
        · intro j hj
          have hp : p = MarkovChain.pickHighest p qs := by simpa using hget
          rcases j with ⟨jv, hjv⟩
          simp only [Fin.val_mk] at hj
          cases jv with
          | zero => exact absurd hj (by omega)
          | succ k =>
            cases k with
            | zero =>
              simp only [List.get_cons_succ, List.get_cons_zero]
              rw [← hp]; exact hgt
            | succ m =>
              simp only [List.get_cons_succ]
              have := hafter ⟨m + 1, by simpa using hjv⟩ (by simp)
              simpa using this
      | succ iv' =>
        refine ⟨⟨iv' + 2, by simpa using hiv⟩, by simpa using hget, ?_, ?_⟩
        · intro r hr
          rcases List.mem_cons.mp hr with h | hr2
          · rw [h]; exact hmax p (List.mem_cons_self _ _)
          rcases List.mem_cons.mp hr2 with h | h
          · rw [h]
            calc q.2 ≤ p.2 := le_of_lt hgt
              _ ≤ _ := hmax p (List.mem_cons_self _ _)
          · exact hmax r (List.mem_cons_of_mem _ h)
        · intro j hj
          rcases j with ⟨jv, hjv⟩
          simp only [Fin.val_mk] at hj
          cases jv with
          | zero => exact absurd hj (by omega)
          | succ k =>
            cases k with
            | zero => exact absurd hj (by omega)
            | succ m =>
              simp only [List.get_cons_succ]
              have := hafter ⟨m + 1, by simpa using hjv⟩
                (by simp only [Fin.val_mk]; omega)
              simpa using this
    · rw [hfold, if_neg hgt]
      obtain ⟨i, hget, hmax, hafter⟩ := ih q
      rcases i with ⟨iv, hiv⟩
      refine ⟨⟨iv + 1, by simpa using hiv⟩, by simpa using hget, ?_, ?_⟩
      · intro r hr
        rcases List.mem_cons.mp hr with h | hr2
        · rw [h]
          calc p.2 ≤ q.2 := le_of_not_lt hgt
            _ ≤ _ := hmax q (List.mem_cons_self _ _)
        · exact hmax r hr2
      · intro j hj
        rcases j with ⟨jv, hjv⟩
        simp only [Fin.val_mk] at hj
        cases jv with
        | zero => exact absurd hj (by omega)
        | succ k =>
          simp only [List.get_cons_succ]
          exact hafter ⟨k, by simpa using hjv⟩
            (by simp only [Fin.val_mk]; omega)

/-- The `Lowest` reduce of `_weighted_select` returns the last candidate of
minimal weight. -/
theorem MarkovChain.pickLowest_lastMin (ps : List (Edge × ℚ)) :
    ∀ p : Edge × ℚ, IsLastMin (p :: ps) (MarkovChain.pickLowest p ps) := by
  induction ps with
  | nil =>
    intro p
    refine ⟨⟨0, by simp⟩, by simp [MarkovChain.pickLowest], ?_, ?_⟩
    · intro q hq
      rw [List.mem_singleton.mp hq]
      simp [MarkovChain.pickLowest]
    · intro j hj
      rcases j with ⟨jv, hjv⟩
      simp only [Fin.val_mk] at hj
      simp only [List.length_cons, List.length_nil] at hjv
      exact absurd hj (by omega)
  | cons q qs ih =>
    intro p
    have hfold : MarkovChain.pickLowest p (q :: qs)
        = MarkovChain.pickLowest (if p.2 < q.2 then p else q) qs := by
      simp [MarkovChain.pickLowest]
    by_cases hlt : p.2 < q.2
    · rw [hfold, if_pos hlt]
      obtain ⟨i, hget, hmin, hafter⟩ := ih p
      rcases i with ⟨iv, hiv⟩
      cases iv with
      | zero =>
        refine ⟨⟨0, by simp⟩, by simpa using hget, ?_, ?_⟩
        · intro r hr
          rcases List.mem_cons.mp hr with h | hr2
          · rw [h]; exact hmin p (List.mem_cons_self _ _)
          rcases List.mem_cons.mp hr2 with h | h
          · rw [h]
            exact le_trans (hmin p (List.mem_cons_self _ _)) (le_of_lt hlt)
          · exact hmin r (List.mem_cons_of_mem _ h)
        · intro j hj
          have hp : p = MarkovChain.pickLowest p qs := by simpa using hget
          rcases j with ⟨jv, hjv⟩
          simp only [Fin.val_mk] at hj
          cases jv with
          | zero => exact absurd hj (by omega)
          | succ k =>
            cases k with
            | zero =>
              simp only [List.get_cons_succ, List.get_cons_zero]
              rw [← hp]; exact hlt
            | succ m =>
              simp only [List.get_cons_succ]
              have := hafter ⟨m + 1, by simpa using hjv⟩ (by simp)
              simpa using this
      | succ iv' =>
        refine ⟨⟨iv' + 2, by simpa using hiv⟩, by simpa using hget, ?_, ?_⟩
        · intro r hr
          rcases List.mem_cons.mp hr with h | hr2
          · rw [h]; exact hmin p (List.mem_cons_self _ _)
          rcases List.mem_cons.mp hr2 with h | h
          · rw [h]
            exact le_trans (hmin p (List.mem_cons_self _ _)) (le_of_lt hlt)
          · exact hmin r (List.mem_cons_of_mem _ h)
        · intro j hj
          rcases j with ⟨jv, hjv⟩
          simp only [Fin.val_mk] at hj
          cases jv with
          | zero => exact absurd hj (by omega)
          | succ k =>
            cases k with
            | zero => exact absurd hj (by omega)
            | succ m =>
              simp only [List.get_cons_succ]
              have := hafter ⟨m + 1, by simpa using hjv⟩
                (by simp only [Fin.val_mk]; omega)
              simpa using this
    · rw [hfold, if_neg hlt]
      obtain ⟨i, hget, hmin, hafter⟩ := ih q
      rcases i with ⟨iv, hiv⟩
      refine ⟨⟨iv + 1, by simpa using hiv⟩, by simpa using hget, ?_, ?_⟩
      · intro r hr
        rcases List.mem_cons.mp hr with h | hr2
        · rw [h]
          exact le_trans (hmin q (List.mem_cons_self _ _)) (le_of_not_lt hlt)
        · exact hmin r hr2
      · intro j hj
        rcases j with ⟨jv, hjv⟩
        simp only [Fin.val_mk] at hj
        cases jv with
        | zero => exact absurd hj (by omega)
        | succ k =>
          simp only [List.get_cons_succ]
          exact hafter ⟨k, by simpa using hjv⟩
            (by simp only [Fin.val_mk]; omega)

/-- The chain built by parsing "a d b d": textlet "d" (id 5) has two
reverse candidates of equal weight, edge 1 (from "a", id 3) first and
edge 3 (from "b", id 6) second in storage order. -/
def chainADBD : MarkovChain := MarkovChain.new.parse_sentence "a d b d".toList

/-- C6 (counterexample): on `chainADBD`, the reverse candidates of seed "d"
are, in storage order, edge 1 (source "a") then edge 3 (source "b"), both
with hits 1 and hence equal `Highest` weight — yet `select_next_word`
returns the second candidate "b" (id 6), not the first-encountered "a"
(id 3) as the claim states. -/
theorem select_highest_not_first :
    chainADBD.select_next_word (.Word "d".toList) StaticBestSelector
        .Reverse 0 0
      = .ok (.Textlet "b".toList, .Textlet " ".toList, 6, 4) ∧
    mget chainADBD.reverse_edges 5 = some [1, 3] ∧
    chainADBD.getEdge 1 = ⟨3, 5, 1, 4⟩ ∧
    chainADBD.getEdge 3 = ⟨6, 5, 1, 4⟩ ∧
    chainADBD.select_next_word (.Word "d".toList) StaticBestSelector
        .Reverse 0 0
      ≠ .ok (.Textlet "a".toList, .Textlet " ".toList, 3, 4) := by
  refine ⟨by decide, by decide, by decide, by decide, by decide⟩

/-- C6 (amended): with selection type `Highest` (resp. `Lowest`),
`_weighted_select` picks a candidate edge whose weight is maximal (resp.
minimal); among several candidates of equal extremal weight it picks the
one encountered LAST in storage order. -/
theorem weighted_select_extremal (c : MarkovChain) (edges : List Nat)
    (weights : List ℚ) (pick : ℚ) (p : Edge × ℚ) (ps : List (Edge × ℚ))
    (h : (edges.map c.getEdge).zip weights = p :: ps) :
    (∃ r : Edge × ℚ, c.weightedSelect .Highest edges weights pick = .ok r.1 ∧
        IsLastMax ((edges.map c.getEdge).zip weights) r) ∧
    (∃ r : Edge × ℚ, c.weightedSelect .Lowest edges weights pick = .ok r.1 ∧
        IsLastMin ((edges.map c.getEdge).zip weights) r) := by
  constructor
  · refine ⟨MarkovChain.pickHighest p ps, ?_, ?_⟩
    · simp [MarkovChain.weightedSelect, h]
    · rw [h]; exact MarkovChain.pickHighest_lastMax ps p
  · refine ⟨MarkovChain.pickLowest p ps, ?_, ?_⟩
    · simp [MarkovChain.weightedSelect, h]
    · rw [h]; exact MarkovChain.pickLowest_lastMin ps p

/-- Witness for the amended C6 on the two equal-weight reverse candidates
of "d" in `chainADBD`. -/
theorem weighted_select_extremal_witness :
    (∃ r : Edge × ℚ,
        chainADBD.weightedSelect .Highest [1, 3] [1, 1] 0 = .ok r.1 ∧
        IsLastMax (([1, 3].map chainADBD.getEdge).zip [1, 1]) r) ∧
    (∃ r : Edge × ℚ,
        chainADBD.weightedSelect .Lowest [1, 3] [1, 1] 0 = .ok r.1 ∧
        IsLastMin (([1, 3].map chainADBD.getEdge).zip [1, 1]) r) :=
  weighted_select_extremal chainADBD [1, 3] [1, 1] 0
    (⟨3, 5, 1, 4⟩, 1) [(⟨6, 5, 1, 4⟩, 1)] (by decide)

/-- The chain built by parsing "a b": ids are Begin 0, End 1, "" 2, "a" 3,
" " 4, "b" 5. -/
def chainAB : MarkovChain := MarkovChain.new.parse_sentence "a b".toList

/-- C7: Composition budget split. With a length cap `L`: (1) the backward
phase stops, adding nothing further, as soon as the prospective new total
length (current length + punctuation length + preceding-token length)
exceeds `L / 2`; (2) the forward phase keeps appending as long as the
prospective cumulative total does not exceed the full `L`; (3) in
`compose_sentence` with `max_len = Some L` the backward loop runs against
budget `L / 2` and the forward loop against the full `L`, starting from the
cumulative length the backward phase reached — so the forward phase may
consume budget left unused by an early-stopping backward phase. -/
theorem compose_budget_split (c : MarkovChain) (sel : Selector) (L : Nat) :
    (∀ (wpicks : Nat → ℚ) fuel cur sentence len prev punct pidx w,
        cur ≠ c.beginIdx →
        c.select_next_word (.Id cur) sel .Reverse 0 (wpicks fuel)
          = .ok (prev, punct, pidx, w) →
        len + punct.len + prev.len > L / 2 →
        c.composeBackward sel wpicks true (L / 2) (fuel + 1) cur sentence len
          = .ok (sentence, len)) ∧
    (∀ (wpicks : Nat → ℚ) fuel cur sentence len nxt punct nidx w,
        cur ≠ c.beginIdx →
        c.select_next_word (.Id cur) sel .Forward 0 (wpicks fuel)
          = .ok (nxt, punct, nidx, w) →
        len + punct.len + nxt.len ≤ L →
        nxt ≠ .End →
        c.composeForward sel wpicks true L (fuel + 1) cur sentence len
          = c.composeForward sel wpicks true L fuel nidx
              (sentence ++ [punct, nxt]) (len + punct.len + nxt.len)) ∧
    (∀ seed sd t sent1 len1 sent2 len2 rpick
        (wB wF : Nat → ℚ) fuel,
        c.is_empty = false →
        c.get_seed seed rpick = .ok sd →
        c.get_textlet sd = some t →
        c.composeBackward sel wB true (L / 2) fuel sd [t] t.len
          = .ok (sent1, len1) →
        c.composeForward sel wF true L fuel sd sent1 len1
          = .ok (sent2, len2) →
        c.compose_sentence seed sel (some L) rpick wB wF fuel
          = .ok sent2) := by
  refine ⟨?_, ?_, ?_⟩
  · intro wpicks fuel cur sentence len prev punct pidx w hcur hsel hlen
    conv_lhs => unfold MarkovChain.composeBackward
    rw [if_neg hcur, hsel]
    simp only []
    rw [if_pos ⟨trivial, hlen⟩]
  · intro wpicks fuel cur sentence len nxt punct nidx w hcur hsel hlen hend
    conv_lhs => unfold MarkovChain.composeForward
    rw [if_neg hcur, hsel]
    simp only []
    rw [if_neg (by simp; omega), if_neg hend]
  · intro seed sd t sent1 len1 sent2 len2 rpick wB wF fuel hne hseed hget
      hback hfwd
    unfold MarkovChain.compose_sentence
    rw [if_neg (by simp [hne]), hseed]
    simp only []
    rw [hget]
    simp only [Option.isSome_some, Option.getD_some]
    rw [hback]
    simp only []
    rw [hfwd]

/-- Witness for C7 on `chainAB` with `L = 20`: the backward phase at length
10 refuses a step that would reach 12 > 10 = L/2, while the forward phase
at the same length 10 accepts the analogous step since 12 ≤ 20, and a full
composition run wires the two phases together over the shared length. -/
theorem compose_budget_split_witness :
    (chainAB.composeBackward StaticBestSelector (fun _ => 0) true 10 1 5
        [.Textlet "b".toList] 10
      = .ok ([.Textlet "b".toList], 10)) ∧
    (chainAB.composeForward StaticBestSelector (fun _ => 0) true 20 1 3
        [.Textlet "a".toList] 10
      = chainAB.composeForward StaticBestSelector (fun _ => 0) true 20 0 5
          ([.Textlet "a".toList] ++ [.Textlet " ".toList, .Textlet "b".toList])
          (10 + (MarkovToken.Textlet " ".toList).len
            + (MarkovToken.Textlet "b".toList).len)) ∧
    (chainAB.compose_sentence (.Word "b".toList) StaticBestSelector (some 20)
        0 (fun _ => 0) (fun _ => 0) 5
      = .ok [.Textlet [], .Textlet "a".toList, .Textlet " ".toList,
             .Textlet "b".toList, .Textlet []]) :=
  ⟨(compose_budget_split chainAB StaticBestSelector 20).1 (fun _ => 0) 0 5
      [.Textlet "b".toList] 10 (.Textlet "a".toList) (.Textlet " ".toList)
      3 4 (by decide) (by decide) (by decide),
   (compose_budget_split chainAB StaticBestSelector 20).2.1 (fun _ => 0) 0 3
      [.Textlet "a".toList] 10 (.Textlet "b".toList) (.Textlet " ".toList)
      5 4 (by decide) (by decide) (by decide) (by decide),
   (compose_budget_split chainAB StaticBestSelector 20).2.2 (.Word "b".toList)
      5 (.Textlet "b".toList)
      [.Textlet [], .Textlet "a".toList, .Textlet " ".toList,
       .Textlet "b".toList] 3
      [.Textlet [], .Textlet "a".toList, .Textlet " ".toList,
       .Textlet "b".toList, .Textlet []] 3
      0 (fun _ => 0) (fun _ => 0) 5
      (by decide) (by decide) (by decide) (by decide) (by decide)⟩

/-- C8 (counterexample): not every input avoids a panic. On the non-empty
`chainAB`, `compose_sentence` with the explicit out-of-range seed
`Id 100` hits `self.get_textlet(seed).unwrap()` on `None` and panics; and
`select_next_word` with a `Random` seed on the fresh (edgeless) chain
panics inside `Uniform::new(0, 0)`. -/
theorem compose_sentence_panics :
    chainAB.is_empty = false ∧
    chainAB.compose_sentence (.Id 100) StaticBestSelector (some 50) 0
        (fun _ => 0) (fun _ => 0) 3 = .panic ∧
    MarkovChain.new.select_next_word .Random StaticBestSelector
        .Forward 0 0 = .panic :=
  ⟨by decide, by decide, by decide⟩

/-- C8 (amended): the three spec-listed failure cases are reported as
recoverable `Err` values, never panics: an empty chain fails composition
with the empty-chain error before anything else runs; a seed word absent
from the interner fails `compose_sentence` and `select_next_word` with the
seed-word-not-found error; a resolved seed id with no candidate edges in
the requested direction (missing or empty index entry) fails
`select_next_word` with the not-connected error. Panic-freedom, however,
does not extend to every input: an out-of-range explicit `Id` seed panics
in `compose_sentence`, and a `Random` seed panics in `select_next_word`
when the seed bag is empty (see the counterexample). -/
theorem composition_failures_are_errors (c : MarkovChain) (sel : Selector) :
    (∀ (seed : MarkovChain.Seed) (max_len : Option Nat) (rpick : Nat)
        (wB wF : Nat → ℚ) (fuel : Nat),
        c.is_empty = true →
        c.compose_sentence seed sel max_len rpick wB wF fuel
          = .err .emptyChain) ∧
    (∀ (w : Str) (max_len : Option Nat) (rpick : Nat) (wB wF : Nat → ℚ)
        (fuel : Nat),
        c.try_get_textlet_index w = none → c.is_empty = false →
        c.compose_sentence (.Word w) sel max_len rpick wB wF fuel
          = .err (.seedWordNotFound w)) ∧
    (∀ (w : Str) (dir : MarkovChain.Dir) (rpick : Nat) (wpick : ℚ),
        c.try_get_textlet_index w = none →
        c.select_next_word (.Word w) sel dir rpick wpick
          = .err (.seedWordNotFound w)) ∧
    (∀ (i : Nat) (dir : MarkovChain.Dir) (rpick : Nat) (wpick : ℚ),
        c.dirIndex dir i = none →
        c.select_next_word (.Id i) sel dir rpick wpick
          = .err (.notConnected (c.get_textlet i))) ∧
    (∀ (i : Nat) (dir : MarkovChain.Dir) (rpick : Nat) (wpick : ℚ),
        c.dirIndex dir i = some [] →
        c.select_next_word (.Id i) sel dir rpick wpick
          = .err (.notConnectedWeird (c.get_textlet i))) := by
  refine ⟨?_, ?_, ?_, ?_, ?_⟩
  · intro seed max_len rpick wB wF fuel h
    simp [MarkovChain.compose_sentence, h]
  · intro w max_len rpick wB wF fuel h1 h2
    simp [MarkovChain.compose_sentence, MarkovChain.get_seed, h1, h2]
  · intro w dir rpick wpick h
    simp [MarkovChain.select_next_word, MarkovChain.get_seed, h]
  · intro i dir rpick wpick h
    simp [MarkovChain.select_next_word, MarkovChain.get_seed, h]
  · intro i dir rpick wpick h
    simp [MarkovChain.select_next_word, MarkovChain.get_seed, h]

/-- An artificial state whose forward index holds an empty candidate vector
under key 7, exercising the "connected, but in a weird way" error arm. -/
def chainWeird : MarkovChain := ⟨[.Begin, .End], [], [], [(7, [])], [], []⟩

/-- Witness for the amended C8: each failure case observed concretely — the
fresh chain refuses composition, "zz" is unknown to `chainAB`, id 1 (`End`)
has no forward index entry there, and `chainWeird` holds an empty candidate
vector for id 7. -/
theorem composition_failures_witness :
    (MarkovChain.new.compose_sentence .Random StaticBestSelector none 0
        (fun _ => 0) (fun _ => 0) 3 = .err .emptyChain) ∧
    (chainAB.compose_sentence (.Word "zz".toList) StaticBestSelector
        (some 9) 0 (fun _ => 0) (fun _ => 0) 3
      = .err (.seedWordNotFound "zz".toList)) ∧
    (chainAB.select_next_word (.Word "zz".toList) StaticBestSelector
        .Forward 0 0 = .err (.seedWordNotFound "zz".toList)) ∧
    (chainAB.select_next_word (.Id 1) StaticBestSelector .Forward 0 0
      = .err (.notConnected (chainAB.get_textlet 1))) ∧
    (chainWeird.select_next_word (.Id 7) StaticBestSelector .Forward 0 0
      = .err (.notConnectedWeird (chainWeird.get_textlet 7))) :=
  ⟨(composition_failures_are_errors MarkovChain.new StaticBestSelector).1
      .Random none 0 (fun _ => 0) (fun _ => 0) 3 (by decide),
   (composition_failures_are_errors chainAB StaticBestSelector).2.1
      "zz".toList (some 9) 0 (fun _ => 0) (fun _ => 0) 3
      (by decide) (by decide),
   (composition_failures_are_errors chainAB StaticBestSelector).2.2.1
      "zz".toList .Forward 0 0 (by decide),
   (composition_failures_are_errors chainAB StaticBestSelector).2.2.2.1
      1 .Forward 0 0 (by decide),
   (composition_failures_are_errors chainWeird StaticBestSelector).2.2.2.2
      7 .Forward 0 0 (by decide)⟩
